import Mathlib

/-!
Verification development for the secureballot vote-confidentiality core and its
surrounding access-control and authentication middleware.

The finite-field secret-sharing engine, the hybrid vote cipher and the mobile
ECIES module are described by the design document only (their service sources are
not part of this tree), so those operations are modelled from the spec, with the
cryptographic primitives (AES-256-CBC, SHA-256, RSA-OAEP, ECDH/AEAD) abstracted
as structures carrying exactly the functional properties the design relies on.
The role/permission middleware and the forgot-password controller are shallow
embeddings of the TypeScript sources.
-/

namespace SecureBallot

/-! ### Polynomials in Horner form, over an arbitrary field -/

/-- Evaluation of the polynomial with coefficient list `coeffs`
(constant term first) at `x`, in Horner form. -/
def polyEval {F : Type} [Field F] (coeffs : List F) (x : F) : F :=
  coeffs.foldr (fun a acc => a + x * acc) 0

/-- The polynomial with coefficient list `coeffs` (constant term first); the
proof-side counterpart of `polyEval`, used only to invoke the interpolation
theory. -/
noncomputable def polyOf {F : Type} [Field F] (coeffs : List F) : Polynomial F :=
  coeffs.foldr (fun a q => Polynomial.C a + Polynomial.X * q) 0

/-- Lagrange interpolation evaluated at `x = 0`: the reconstruction formula
`∑ⱼ yⱼ · ∏_{m ≠ j} xₘ / (xₘ - xⱼ)` over a list of `(x, y)` sample points. -/
def lagrangeAtZero {F : Type} [Field F] [DecidableEq F] (pts : List (F × F)) : F :=
  (pts.map (fun q =>
    q.2 * ((pts.filter (fun r => r.1 ≠ q.1)).map (fun r => r.1 * (r.1 - q.1)⁻¹)).prod)).sum

/-! ### Finite-field secret sharing engine (spec §4.1) -/

/-- Error kinds of the sharing engine (spec §7). -/
inductive SharingError where
  | InvalidParameters
  | InsufficientShares
deriving DecidableEq, Repr

/-- One of the N shares of an election secret: `shareIndex` is the 1-based
x-coordinate, `shareValue` the field element `f(shareIndex)` (spec §3). -/
structure KeyShare (p : ℕ) where
  shareIndex : ℕ
  shareValue : ZMod p
deriving DecidableEq

/-- Modelled from the spec: `split(secret, T, N, p)` of §4.1 — the secret-sharing
service source is not in the tree. The degree-`T-1` polynomial over `ZMod p` has
constant term `secret`; its `T-1` random coefficients are passed in as `rand`
(randomness is a parameter of the model). The polynomial is evaluated at the `N`
distinct non-zero x-coordinates `1..N`; fails with `InvalidParameters` when
`T < 1` or `T > N`. -/
def split {p : ℕ} [Fact p.Prime] (secret : ZMod p) (rand : List (ZMod p)) (T N : ℕ) :
    Except SharingError (List (KeyShare p)) :=
  if T < 1 ∨ N < T then .error .InvalidParameters
  else .ok ((List.range N).map (fun i =>
    ⟨i + 1, polyEval (secret :: rand) ((i + 1 : ℕ) : ZMod p)⟩))

/-- Modelled from the spec: `reconstruct(shares, p)` of §4.1 — the secret-sharing
service source is not in the tree. The explicit share-count precondition check is
performed before any interpolation; with at least `T` shares, Lagrange
interpolation at `x = 0` recovers the constant term. -/
def reconstruct {p : ℕ} [Fact p.Prime] (T : ℕ) (shares : List (KeyShare p)) :
    Except SharingError (ZMod p) :=
  if shares.length < T then .error .InsufficientShares
  else .ok (lagrangeAtZero (shares.map (fun sh => ((sh.shareIndex : ZMod p), sh.shareValue))))

/-! ### Hybrid vote cipher (spec §4.3) -/

/-- A cast vote's payload (spec §3; the canonical fields of scenario 2,
with identifiers modelled as numbers). -/
structure VoteData where
  candidateId : ℕ
  pollingUnitId : ℕ
deriving DecidableEq, Repr

/-- Modelled from the spec: canonical (deterministic, injective) serialization
of a vote payload to a byte list. -/
def serializeVote (v : VoteData) : List ℕ :=
  [v.candidateId, v.pollingUnitId]

/-- Inverse of `serializeVote`; fails on byte lists that are not a canonical
serialization. -/
def deserializeVote : List ℕ → Option VoteData
  | [c, u] => some ⟨c, u⟩
  | _ => none

/-- Modelled from the spec: the symmetric cipher (AES-256-CBC) as an abstract
block cipher keyed by a 256-bit key and an IV. `dec_enc` is the round-trip
property; `dec_inj` records that per-key/IV decryption is injective
(a block-cipher decryption is a bijection on byte strings). -/
structure SymCipher where
  enc : ℕ → ℕ → List ℕ → List ℕ
  dec : ℕ → ℕ → List ℕ → List ℕ
  dec_enc : ∀ k iv m, dec k iv (enc k iv m) = m
  dec_inj : ∀ k iv c c', dec k iv c = dec k iv c' → c = c'

/-- Modelled from the spec: the integrity hash (SHA-256). Collision-freeness on
the byte strings in play idealizes collision resistance. -/
structure HashFn where
  hash : List ℕ → List ℕ
  hash_inj : ∀ m m', hash m = hash m' → m = m'

/-- Modelled from the spec: the asymmetric scheme (RSA-2048 with OAEP padding)
used to wrap the one-time symmetric key, together with the deterministic
public-key fingerprint of §4.2. `pubOf` maps a private key to its public
counterpart; `dec_enc` is the wrap/unwrap round trip for a matched key pair. -/
structure AsymScheme (Pub Priv : Type) where
  pubOf : Priv → Pub
  fingerprint : Pub → ℕ
  enc : Pub → ℕ → List ℕ
  dec : Priv → List ℕ → ℕ
  dec_enc : ∀ (sk : Priv) (k : ℕ), dec sk (enc (pubOf sk) k) = k

/-- An encrypted vote record (spec §3). -/
structure EncryptedVote where
  voteId : ℕ
  encryptedVoteData : List ℕ
  encryptedSymmetricKey : List ℕ
  initializationVector : ℕ
  integrityHash : List ℕ
  publicKeyFingerprint : ℕ
  receiptCode : List ℕ
deriving DecidableEq, Repr

/-- Error kinds of the vote cipher (spec §7). -/
inductive VoteCryptoError where
  | KeyMismatch
  | IntegrityViolation
  | MalformedVote
deriving DecidableEq, Repr

/-- Modelled from the spec: `encryptVote` of §4.3 — the vote-encryption service
source is not in the tree. The fresh one-time symmetric key `k` and IV `iv` are
parameters of the model (randomness is generated per call). -/
def encryptVote {Pub Priv : Type} (S : SymCipher) (H : HashFn) (A : AsymScheme Pub Priv)
    (voteId : ℕ) (v : VoteData) (pub : Pub) (k iv : ℕ) : EncryptedVote :=
  let plain := serializeVote v
  { voteId := voteId
    encryptedVoteData := S.enc k iv plain
    encryptedSymmetricKey := A.enc pub k
    initializationVector := iv
    integrityHash := H.hash plain
    publicKeyFingerprint := A.fingerprint pub
    receiptCode := (H.hash plain).take 8 }

/-- Modelled from the spec: `decryptVote` of §4.3 — the vote-encryption service
source is not in the tree. Order of checks follows the spec: the fingerprint
comparison aborts with `KeyMismatch` before any decryption; after decryption the
plaintext hash is recomputed and compared to the stored `integrityHash`, and a
mismatch aborts with `IntegrityViolation` before any plaintext is returned. -/
def decryptVote {Pub Priv : Type} (S : SymCipher) (H : HashFn) (A : AsymScheme Pub Priv)
    (ev : EncryptedVote) (sk : Priv) : Except VoteCryptoError VoteData :=
  if A.fingerprint (A.pubOf sk) ≠ ev.publicKeyFingerprint then .error .KeyMismatch
  else
    let k := A.dec sk ev.encryptedSymmetricKey
    let plain := S.dec k ev.initializationVector ev.encryptedVoteData
    if H.hash plain ≠ ev.integrityHash then .error .IntegrityViolation
    else
      match deserializeVote plain with
      | some v => .ok v
      | none => .error .MalformedVote

/-- Modelled from the spec: `batchDecrypt` of §4.3 — decrypts independently per
vote, pairing each success with the vote's identifier and each failure with the
identifier and its reason. -/
def batchDecryptVotes {Pub Priv : Type} (S : SymCipher) (H : HashFn) (A : AsymScheme Pub Priv) :
    List EncryptedVote → Priv → List (ℕ × VoteData) × List (ℕ × VoteCryptoError)
  | [], _ => ([], [])
  | ev :: rest, sk =>
    let r := batchDecryptVotes S H A rest sk
    match decryptVote S H A ev sk with
    | .ok v => ((ev.voteId, v) :: r.1, r.2)
    | .error e => (r.1, (ev.voteId, e) :: r.2)

/-- Flip bit `j` of byte `i` of a byte list. -/
def flipBit (l : List ℕ) (i j : ℕ) : List ℕ :=
  l.set i (l.getD i 0 ^^^ 2 ^ j)

/-! ### Mobile vote security module (spec §4.4) -/

/-- Modelled from the spec: elliptic-curve Diffie–Hellman key agreement.
`dh_comm` is the shared-secret agreement between the two sides. -/
structure EcdhScheme (EPub EPriv : Type) where
  pubOf : EPriv → EPub
  dh : EPriv → EPub → ℕ
  dh_comm : ∀ a b, dh a (pubOf b) = dh b (pubOf a)

/-- Modelled from the spec: the authenticated symmetric cipher (AES-GCM style).
`tagOf` is the authentication tag the cipher computes over a ciphertext under a
given key and IV; `dec` is the raw decryption applied only once the tag
verifies. -/
structure AeadCipher where
  enc : ℕ → ℕ → List ℕ → List ℕ
  dec : ℕ → ℕ → List ℕ → List ℕ
  tagOf : ℕ → ℕ → List ℕ → List ℕ
  dec_enc : ∀ k iv m, dec k iv (enc k iv m) = m

/-- A mobile ECIES package (spec §3). -/
structure MobileEciesPackage (EPub : Type) where
  ephemeralPublicKey : EPub
  iv : ℕ
  ciphertext : List ℕ
  authTag : List ℕ
deriving DecidableEq, Repr

/-- Modelled from the spec: `encryptForServer` of §4.4 — ephemeral ECDH against
the server's static public key, key derivation `kdf` over the shared secret,
authenticated encryption of the payload. -/
def encryptForServer {EPub EPriv : Type} (E : EcdhScheme EPub EPriv) (G : AeadCipher)
    (kdf : ℕ → ℕ) (payload : List ℕ) (serverPub : EPub) (ephPriv : EPriv) (iv : ℕ) :
    MobileEciesPackage EPub :=
  let k := kdf (E.dh ephPriv serverPub)
  let ct := G.enc k iv payload
  { ephemeralPublicKey := E.pubOf ephPriv
    iv := iv
    ciphertext := ct
    authTag := G.tagOf k iv ct }

/-- Modelled from the spec: `decryptFromClient` of §4.4 — recompute the shared
secret from the server's static private key and the package's ephemeral public
key, re-derive the symmetric key, and decrypt only if the authentication tag
verifies; a tag mismatch aborts with no plaintext released. -/
def decryptFromClient {EPub EPriv : Type} (E : EcdhScheme EPub EPriv) (G : AeadCipher)
    (kdf : ℕ → ℕ) (pkg : MobileEciesPackage EPub) (serverPriv : EPriv) :
    Option (List ℕ) :=
  let k := kdf (E.dh serverPriv pkg.ephemeralPublicKey)
  if pkg.authTag = G.tagOf k pkg.iv pkg.ciphertext then
    some (G.dec k pkg.iv pkg.ciphertext)
  else none

/-! ### Access-control middleware (src/unnamed/part_001) -/

/-- The role hierarchy of the middleware; any role absent from the record maps
to `0` (the `|| 0` default in `hasEqualOrHigherRole`). -/
def roleHierarchy : String → ℕ
  | "SystemAdministrator" => 100
  | "ElectoralCommissioner" => 90
  | "SecurityOfficer" => 85
  | "SystemAuditor" => 80
  | "RegionalElectoralOfficer" => 70
  | "ElectionManager" => 65
  | "ResultVerificationOfficer" => 60
  | "PollingUnitOfficer" => 50
  | "VoterRegistrationOfficer" => 45
  | "CandidateRegistrationOfficer" => 40
  | "Observer" => 20
  | "Voter" => 10
  | _ => 0

/-- The default role-permission mapping of the middleware; an absent role maps
to `[]` (the `|| []` default in `roleHasPermission`). The `UserRole` and
`Permission` enum values (declared in a types module not in the tree) are
modelled by their member names. -/
def rolePermissions : String → List String
  | "SystemAdministrator" =>
    ["MANAGE_USERS", "MANAGE_ROLES", "MANAGE_SYSTEM_SETTINGS", "VIEW_AUDIT_LOGS",
     "GENERATE_REPORTS", "MANAGE_SECURITY_SETTINGS", "MANAGE_ENCRYPTION_KEYS",
     "VIEW_SECURITY_LOGS"]
  | "ElectoralCommissioner" =>
    ["CREATE_ELECTION", "EDIT_ELECTION", "DELETE_ELECTION", "MANAGE_CANDIDATES",
     "PUBLISH_RESULTS", "GENERATE_REPORTS", "VIEW_RESULTS", "EXPORT_RESULTS"]
  | "SecurityOfficer" =>
    ["MANAGE_SECURITY_SETTINGS", "MANAGE_ENCRYPTION_KEYS", "VIEW_SECURITY_LOGS",
     "VIEW_AUDIT_LOGS"]
  | "SystemAuditor" => ["VIEW_AUDIT_LOGS", "GENERATE_REPORTS", "VIEW_SECURITY_LOGS"]
  | "RegionalElectoralOfficer" => ["MANAGE_POLLING_UNITS", "ASSIGN_OFFICERS", "VIEW_RESULTS"]
  | "ElectionManager" =>
    ["EDIT_ELECTION", "MANAGE_CANDIDATES", "VIEW_RESULTS", "GENERATE_REPORTS"]
  | "ResultVerificationOfficer" => ["VIEW_RESULTS", "VERIFY_RESULTS", "EXPORT_RESULTS"]
  | "PollingUnitOfficer" => ["VERIFY_VOTERS"]
  | "VoterRegistrationOfficer" =>
    ["REGISTER_VOTERS", "VERIFY_VOTERS", "RESET_VOTER_PASSWORD"]
  | "CandidateRegistrationOfficer" => ["MANAGE_CANDIDATES"]
  | "Observer" => ["VIEW_ELECTIONS", "VIEW_RESULTS"]
  | "Voter" => ["VIEW_ELECTIONS", "CAST_VOTE"]
  | _ => []

/-- `hasEqualOrHigherRole` of the middleware: compares hierarchy levels with the
`|| 0` default for unknown roles. -/
def hasEqualOrHigherRole (userRole requiredRole : String) : Bool :=
  decide (roleHierarchy requiredRole ≤ roleHierarchy userRole)

/-- `roleHasPermission` of the middleware: membership of the required permission
in the role's default permission list. -/
def roleHasPermission (userRole requiredPermission : String) : Bool :=
  (rolePermissions userRole).contains requiredPermission

/-- The `ApiError` payload of the middleware (status, message, code). -/
structure ApiError where
  status : ℕ
  message : String
  code : String
deriving DecidableEq, Repr

/-- The authenticated user attached to a request: `adminType` is the user's
role (absent when no role is assigned), `permissions` the explicit permission
names of `req.user.permissions` (empty when absent). -/
structure AuthUser where
  adminType : Option String
  permissions : List String
deriving DecidableEq, Repr

/-- The `requireRole` middleware, array form: grants access when the user's role
has a hierarchy level at least that of some listed role. -/
def requireRole (roles : List String) (user : Option AuthUser) : Except ApiError Unit :=
  match user with
  | none => .error ⟨401, "User not authenticated", "AUTHENTICATION_REQUIRED"⟩
  | some u =>
    match u.adminType with
    | none => .error ⟨403, "User has no assigned role", "ROLE_REQUIRED"⟩
    | some userRole =>
      if roles.any (fun role => hasEqualOrHigherRole userRole role) then .ok ()
      else .error ⟨403, "Insufficient permissions", "INSUFFICIENT_PERMISSIONS"⟩

/-- The `requirePermission` middleware: every required permission must be held
explicitly or through the role's default permissions. -/
def requirePermission (requiredPermissions : List String) (user : Option AuthUser) :
    Except ApiError Unit :=
  match user with
  | none => .error ⟨401, "User not authenticated", "AUTHENTICATION_REQUIRED"⟩
  | some u =>
    let userPermissions := u.permissions
    match u.adminType with
    | none => .error ⟨403, "User has no assigned role", "ROLE_REQUIRED"⟩
    | some userRole =>
      if requiredPermissions.all
          (fun perm => userPermissions.contains perm || roleHasPermission userRole perm) then
        .ok ()
      else .error ⟨403, "Insufficient permissions", "INSUFFICIENT_PERMISSIONS"⟩

/-! ### Forgot-password controller (src/src/controllers/auth/authController.ts) -/

/-- An HTTP response as produced by the controller: status code, the `success`
flag and the `message` of the JSON body. -/
structure HttpResponse where
  status : ℕ
  success : Bool
  message : String
deriving DecidableEq, Repr

/-- The `forgotPassword` handler from the point where token generation is
reached: `tokenResult` is the outcome of
`authService.generatePasswordResetToken(email)` (an error when the email is not
registered), `auditResult` the outcome of the audit-log write. Any failure
inside the inner `try` falls into the inner `catch`, which still answers 200
with `success: true`. -/
def forgotPassword (tokenResult : Except String String) (auditResult : Except String Unit) :
    HttpResponse :=
  match tokenResult with
  | .ok _ =>
    match auditResult with
    | .ok _ => ⟨200, true, "Password reset instructions sent to your email"⟩
    | .error _ =>
      ⟨200, true, "If your email is registered, you will receive password reset instructions"⟩
  | .error _ =>
    ⟨200, true, "If your email is registered, you will receive password reset instructions"⟩

/-! ### Concrete instances used by the witnesses -/

/-- Byte-wise XOR with a fixed pad, the toy symmetric primitive of the witness
instances. -/
def xorBytes (key : ℕ) (m : List ℕ) : List ℕ :=
  m.map (fun b => b ^^^ key)

/-- XOR with the same pad twice is the identity. -/
theorem xorBytes_xorBytes (key : ℕ) (m : List ℕ) : xorBytes key (xorBytes key m) = m := by
  simp [xorBytes, List.map_map, Function.comp_def, Nat.xor_cancel_right]

/-- A concrete symmetric cipher: XOR with the pad `k + iv`. -/
def toySym : SymCipher where
  enc k iv m := xorBytes (k + iv) m
  dec k iv c := xorBytes (k + iv) c
  dec_enc := fun k iv m => xorBytes_xorBytes (k + iv) m
  dec_inj := fun k iv c c' h => by
    have h2 : xorBytes (k + iv) (xorBytes (k + iv) c) = xorBytes (k + iv) (xorBytes (k + iv) c') :=
      congrArg (xorBytes (k + iv)) h
    rwa [xorBytes_xorBytes, xorBytes_xorBytes] at h2

/-- A concrete collision-free hash: the identity on byte lists. -/
def toyHash : HashFn where
  hash m := m
  hash_inj := fun _ _ h => h

/-- A concrete asymmetric scheme on numeric keys: the public counterpart of `sk`
is `sk + 1`, wrapping adds the public key. -/
def toyAsym : AsymScheme ℕ ℕ where
  pubOf sk := sk + 1
  fingerprint pub := pub
  enc pub k := [k + pub]
  dec sk c := c.headD 0 - (sk + 1)
  dec_enc := fun sk k => by simp

/-- A concrete ECDH scheme: `pubOf sk = 2 * sk`, shared secret `a * pubOf b`. -/
def toyEcdh : EcdhScheme ℕ ℕ where
  pubOf sk := 2 * sk
  dh a b := a * b
  dh_comm := fun a b => by ring

/-- A concrete AEAD cipher: XOR body with a checksum tag. -/
def toyAead : AeadCipher where
  enc k iv m := xorBytes (k + iv) m
  dec k iv c := xorBytes (k + iv) c
  tagOf k iv c := [c.sum + k + iv]
  dec_enc := fun k iv m => xorBytes_xorBytes (k + iv) m

/-- The election private key of the concrete batch scenario. -/
def scenarioPriv : ℕ := 5

/-- Ten concrete encrypted votes with identifiers `1..10` (scenario 5). -/
def scenarioVotes : List EncryptedVote :=
  (List.range 10).map (fun i =>
    encryptVote toySym toyHash toyAsym (i + 1) ⟨i + 1, 7⟩ (toyAsym.pubOf scenarioPriv)
      (i + 20) (i + 3))

/-- Tamper with the integrity hash of vote #4, leaving the others intact. -/
def tamperFourth (ev : EncryptedVote) : EncryptedVote :=
  if ev.voteId = 4 then { ev with integrityHash := flipBit ev.integrityHash 0 0 } else ev

/-- The scenario batch: ten votes of which vote #4 has a tampered hash. -/
def scenarioTampered : List EncryptedVote :=
  scenarioVotes.map tamperFourth

/-- Scenario 4: an honest ECIES package whose authentication tag has one
corrupted byte (bit 0 of byte 0 flipped). -/
def scenarioEciesPackage : MobileEciesPackage ℕ :=
  let honest := encryptForServer toyEcdh toyAead (fun n => n) [1, 2] (toyEcdh.pubOf 3) 4 2
  { honest with authTag := flipBit honest.authTag 0 0 }

/-- Primality of the field size of the witness instances. -/
instance : Fact (Nat.Prime 13) := ⟨by norm_num⟩

/-! ## Helper lemmas -/

/-- Flipping a bit of a byte within range changes the byte list. -/
theorem flipBit_ne (l : List ℕ) (i j : ℕ) (hi : i < l.length) : flipBit l i j ≠ l := by
  intro h
  have hget : (flipBit l i j).getD i 0 = l.getD i 0 := by rw [h]
  rw [flipBit, List.getD_eq_getElem?_getD, List.getElem?_set_self] at hget
  · rw [List.getD_eq_getElem?_getD] at hget
    have hpow : (2 : ℕ) ^ j ≠ 0 := pow_ne_zero j (by norm_num)
    have := Nat.xor_right_injective (n := l[i]?.getD 0)
    have hx : l[i]?.getD 0 ^^^ 2 ^ j = l[i]?.getD 0 ^^^ 0 := by
      simpa [Nat.xor_zero] using hget
    exact hpow (Nat.xor_right_injective hx)
  · exact hi

/-! ## Claims -/

/-- C3: reconstruction with fewer than `T` shares (in particular `T - 1`) fails
with `InsufficientShares` through the explicit share-count precondition check,
before any Lagrange interpolation; no secret value is returned. -/
theorem reconstruct_insufficient (p : ℕ) [Fact p.Prime] (T : ℕ) (shares : List (KeyShare p))
    (h : shares.length < T) :
    reconstruct T shares = .error .InsufficientShares := by
  simp [reconstruct, h]

theorem reconstruct_insufficient_witness :
    reconstruct 3 ([⟨1, 1⟩, ⟨2, 2⟩] : List (KeyShare 13)) = .error .InsufficientShares :=
  reconstruct_insufficient 13 3 [⟨1, 1⟩, ⟨2, 2⟩] (by decide)

/-- C5: when the fingerprint of the supplied private key's public counterpart
differs from the vote's stored `publicKeyFingerprint`, `decryptVote` fails with
`KeyMismatch` — for every ciphertext content, so decryption is never
attempted. -/
theorem decryptVote_keyMismatch {Pub Priv : Type} (S : SymCipher) (H : HashFn)
    (A : AsymScheme Pub Priv) (ev : EncryptedVote) (sk : Priv)
    (h : A.fingerprint (A.pubOf sk) ≠ ev.publicKeyFingerprint) :
    decryptVote S H A ev sk = .error .KeyMismatch := by
  simp [decryptVote, h]

theorem decryptVote_keyMismatch_witness :
    decryptVote toySym toyHash toyAsym
      { voteId := 1, encryptedVoteData := [0], encryptedSymmetricKey := [0],
        initializationVector := 0, integrityHash := [0], publicKeyFingerprint := 0,
        receiptCode := [] } 5 = .error .KeyMismatch :=
  decryptVote_keyMismatch toySym toyHash toyAsym _ 5 (by decide)

/-- C7: a `MobileEciesPackage` whose authentication tag does not verify under
the key derived from the server's static private key and the package's
ephemeral public key is rejected by `decryptFromClient` with no plaintext
released. -/
theorem decryptFromClient_fail_closed {EPub EPriv : Type} (E : EcdhScheme EPub EPriv)
    (G : AeadCipher) (kdf : ℕ → ℕ) (pkg : MobileEciesPackage EPub) (serverPriv : EPriv)
    (h : pkg.authTag ≠
      G.tagOf (kdf (E.dh serverPriv pkg.ephemeralPublicKey)) pkg.iv pkg.ciphertext) :
    decryptFromClient E G kdf pkg serverPriv = none := by
  simp [decryptFromClient, h]

theorem decryptFromClient_fail_closed_witness :
    decryptFromClient toyEcdh toyAead (fun n => n) scenarioEciesPackage 3 = none :=
  decryptFromClient_fail_closed toyEcdh toyAead (fun n => n) scenarioEciesPackage 3 (by decide)

/-- C10: once the token-generation step of `forgotPassword` is reached, the
response is status 200 with `success: true` whether or not token generation (or
the audit-log write) succeeds, so two runs differing only in the email's
registration status produce the same status and success flag. -/
theorem forgotPassword_uniform_response (g g' : Except String String)
    (a a' : Except String Unit) :
    (forgotPassword g a).status = 200 ∧ (forgotPassword g a).success = true ∧
      (forgotPassword g a).status = (forgotPassword g' a').status ∧
      (forgotPassword g a).success = (forgotPassword g' a').success := by
  rcases g with t | e <;> rcases g' with t' | e' <;> rcases a with u | f <;>
    rcases a' with u' | f' <;> simp [forgotPassword]

/-- C2: hybrid encryption round trip — decrypting an encrypted vote with the
private counterpart of the encryption key recovers the vote payload exactly. -/
theorem decryptVote_encryptVote_roundtrip {Pub Priv : Type} (S : SymCipher) (H : HashFn)
    (A : AsymScheme Pub Priv) (voteId : ℕ) (v : VoteData) (pub : Pub) (sk : Priv)
    (k iv : ℕ) (hkey : pub = A.pubOf sk) :
    decryptVote S H A (encryptVote S H A voteId v pub k iv) sk = .ok v := by
  subst hkey
  simp [decryptVote, encryptVote, A.dec_enc, S.dec_enc, serializeVote, deserializeVote]

theorem decryptVote_encryptVote_roundtrip_witness :
    decryptVote toySym toyHash toyAsym
      (encryptVote toySym toyHash toyAsym 1 ⟨2, 3⟩ (toyAsym.pubOf 5) 9 4) 5 = .ok ⟨2, 3⟩ :=
  decryptVote_encryptVote_roundtrip toySym toyHash toyAsym 1 ⟨2, 3⟩ (toyAsym.pubOf 5) 5 9 4 rfl

/-- C4: flipping any single bit of `encryptedVoteData` or of `integrityHash` of
an encrypted vote makes `decryptVote` fail with `IntegrityViolation` (the hash
of the decrypted plaintext is recomputed and compared after decryption), and no
plaintext is returned. -/
theorem decryptVote_tamper_integrity {Pub Priv : Type} (S : SymCipher) (H : HashFn)
    (A : AsymScheme Pub Priv) (voteId : ℕ) (v : VoteData) (sk : Priv) (k iv : ℕ)
    (ev : EncryptedVote) (hev : ev = encryptVote S H A voteId v (A.pubOf sk) k iv)
    (i j : ℕ) :
    (i < ev.encryptedVoteData.length →
      decryptVote S H A { ev with encryptedVoteData := flipBit ev.encryptedVoteData i j } sk =
        .error .IntegrityViolation) ∧
    (i < ev.integrityHash.length →
      decryptVote S H A { ev with integrityHash := flipBit ev.integrityHash i j } sk =
        .error .IntegrityViolation) := by
  subst hev
  have hkey : A.dec sk (A.enc (A.pubOf sk) k) = k := A.dec_enc sk k
  constructor
  · intro hi
    have hne : flipBit (S.enc k iv (serializeVote v)) i j ≠ S.enc k iv (serializeVote v) :=
      flipBit_ne _ i j (by simpa [encryptVote] using hi)
    have hhash : H.hash (S.dec k iv (flipBit (S.enc k iv (serializeVote v)) i j)) ≠
        H.hash (serializeVote v) := by
      intro heq
      have hplain := H.hash_inj _ _ heq
      have hdec : S.dec k iv (flipBit (S.enc k iv (serializeVote v)) i j) =
          S.dec k iv (S.enc k iv (serializeVote v)) := by
        rw [hplain, S.dec_enc]
      exact hne (S.dec_inj _ _ _ _ hdec)
    simp [decryptVote, encryptVote, hkey, hhash]
  · intro hi
    have hne : H.hash (serializeVote v) ≠ flipBit (H.hash (serializeVote v)) i j :=
      fun h => flipBit_ne _ i j (by simpa [encryptVote] using hi) h.symm
    simp [decryptVote, encryptVote, hkey, S.dec_enc, hne]

theorem decryptVote_tamper_integrity_witness :
    decryptVote toySym toyHash toyAsym
        { encryptVote toySym toyHash toyAsym 1 ⟨2, 3⟩ (toyAsym.pubOf 5) 9 4 with
          encryptedVoteData :=
            flipBit
              (encryptVote toySym toyHash toyAsym 1 ⟨2, 3⟩
                (toyAsym.pubOf 5) 9 4).encryptedVoteData 0 0 } 5 =
      .error .IntegrityViolation :=
  (decryptVote_tamper_integrity toySym toyHash toyAsym 1 ⟨2, 3⟩ 5 9 4 _ rfl 0 0).1 (by decide)

/-- Every hierarchy level in the role table is at most 100. -/
theorem roleHierarchy_le (s : String) : roleHierarchy s ≤ 100 := by
  unfold roleHierarchy
  split <;> omega

/-- The array form of `requireRole` grants access exactly when some listed role
has a hierarchy level at most the user's. -/
theorem requireRole_ok_iff (roles perms : List String) (r : String) :
    requireRole roles (some ⟨some r, perms⟩) = .ok () ↔
      ∃ q ∈ roles, roleHierarchy q ≤ roleHierarchy r := by
  have hme : requireRole roles (some ⟨some r, perms⟩) =
      (if roles.any (fun role => hasEqualOrHigherRole r role) then .ok ()
       else .error ⟨403, "Insufficient permissions", "INSUFFICIENT_PERMISSIONS"⟩) := rfl
  rw [hme]
  by_cases h : roles.any (fun role => hasEqualOrHigherRole r role)
  · rw [if_pos h]
    simp only [List.any_eq_true, hasEqualOrHigherRole, decide_eq_true_eq] at h
    exact iff_of_true rfl h
  · rw [if_neg h]
    simp only [List.any_eq_true, hasEqualOrHigherRole, decide_eq_true_eq] at h
    push_neg at h
    constructor
    · intro hc; simp at hc
    · rintro ⟨q, hq, hle⟩
      exact absurd hle (not_le.mpr (h q hq))

/-- C8: for an authenticated user with an assigned role and a non-empty role
array, `requireRole` grants access exactly when the user's hierarchy level is at
least that of some listed role (membership is not required); consequently
`SystemAdministrator` (level 100) passes every such check, and an unrecognized
role (level 0) passes a check against a role that is also absent from the
hierarchy. -/
theorem requireRole_hierarchy_spec (roles perms : List String) (r : String)
    (hne : roles ≠ []) :
    (requireRole roles (some ⟨some r, perms⟩) = .ok () ↔
        ∃ q ∈ roles, roleHierarchy q ≤ roleHierarchy r) ∧
      requireRole roles (some ⟨some "SystemAdministrator", perms⟩) = .ok () ∧
      (roleHierarchy r = 0 → ∀ q, roleHierarchy q = 0 →
        requireRole [q] (some ⟨some r, perms⟩) = .ok ()) := by
  have h100 : roleHierarchy "SystemAdministrator" = 100 := rfl
  refine ⟨requireRole_ok_iff roles perms r, ?_, ?_⟩
  · rcases roles with _ | ⟨q, rest⟩
    · exact absurd rfl hne
    · refine (requireRole_ok_iff (q :: rest) perms "SystemAdministrator").mpr ?_
      exact ⟨q, by simp, by rw [h100]; exact roleHierarchy_le q⟩
  · intro hr q hq
    refine (requireRole_ok_iff [q] perms r).mpr ?_
    exact ⟨q, by simp, by rw [hq, hr]⟩

theorem requireRole_hierarchy_spec_witness :
    requireRole ["ElectoralCommissioner"] (some ⟨some "SystemAdministrator", []⟩) = .ok () :=
  (requireRole_hierarchy_spec ["ElectoralCommissioner"] [] "SystemAdministrator"
    (by simp)).2.1

/-- C9: `requirePermission` answers 401 `AUTHENTICATION_REQUIRED` without a
user, 403 `ROLE_REQUIRED` without a role, and otherwise grants access exactly
when every required permission is held explicitly or through the role's default
permissions. -/
theorem requirePermission_spec :
    (∀ req : List String,
        requirePermission req none =
          .error ⟨401, "User not authenticated", "AUTHENTICATION_REQUIRED"⟩) ∧
      (∀ req perms : List String,
        requirePermission req (some ⟨none, perms⟩) =
          .error ⟨403, "User has no assigned role", "ROLE_REQUIRED"⟩) ∧
      (∀ (req perms : List String) (r : String),
        requirePermission req (some ⟨some r, perms⟩) = .ok () ↔
          ∀ p ∈ req, p ∈ perms ∨ p ∈ rolePermissions r) := by
  refine ⟨fun req => rfl, fun req perms => rfl, fun req perms r => ?_⟩
  have hme : requirePermission req (some ⟨some r, perms⟩) =
      (if req.all (fun perm => perms.contains perm || roleHasPermission r perm) then .ok ()
       else .error ⟨403, "Insufficient permissions", "INSUFFICIENT_PERMISSIONS"⟩) := rfl
  rw [hme]
  by_cases h : req.all (fun perm => perms.contains perm || roleHasPermission r perm)
  · rw [if_pos h]
    simp only [List.all_eq_true, Bool.or_eq_true, roleHasPermission, List.contains,
      List.elem_eq_mem, decide_eq_true_eq] at h
    exact iff_of_true rfl h
  · rw [if_neg h]
    simp only [List.all_eq_true, Bool.or_eq_true, roleHasPermission, List.contains,
      List.elem_eq_mem, decide_eq_true_eq] at h
    constructor
    · intro hc; simp at hc
    · intro hall; exact absurd hall h

theorem requirePermission_spec_witness :
    requirePermission ["CAST_VOTE"] (some ⟨some "Voter", []⟩) = .ok () :=
  (requirePermission_spec.2.2 ["CAST_VOTE"] [] "Voter").mpr (by decide)

/-- Per-vote outcomes of a batch cover the input identifiers exactly once. -/
theorem batchDecryptVotes_ids_perm {Pub Priv : Type} (S : SymCipher) (H : HashFn)
    (A : AsymScheme Pub Priv) (votes : List EncryptedVote) (sk : Priv) :
    List.Perm
      ((batchDecryptVotes S H A votes sk).1.map Prod.fst ++
        (batchDecryptVotes S H A votes sk).2.map Prod.fst)
      (votes.map EncryptedVote.voteId) := by
  induction votes with
  | nil => simp [batchDecryptVotes]
  | cons ev rest ih =>
    cases hdec : decryptVote S H A ev sk with
    | ok v =>
      simp only [batchDecryptVotes, hdec, List.map_cons, List.cons_append]
      exact ih.cons ev.voteId
    | error e =>
      simp only [batchDecryptVotes, hdec, List.map_cons]
      exact List.Perm.trans List.perm_middle (ih.cons ev.voteId)

/-- C6: `batchDecrypt` yields exactly one success-or-failure outcome per input
vote (the outcome identifiers are a permutation of the input identifiers), and
on the concrete batch of 10 votes with vote #4's hash tampered it yields 9
successes and one isolated failure referencing vote #4. -/
theorem batchDecrypt_complete_isolated :
    (∀ (Pub Priv : Type) (S : SymCipher) (H : HashFn) (A : AsymScheme Pub Priv)
        (votes : List EncryptedVote) (sk : Priv),
        List.Perm
          ((batchDecryptVotes S H A votes sk).1.map Prod.fst ++
            (batchDecryptVotes S H A votes sk).2.map Prod.fst)
          (votes.map EncryptedVote.voteId)) ∧
      (batchDecryptVotes toySym toyHash toyAsym scenarioTampered scenarioPriv).1.length = 9 ∧
      (batchDecryptVotes toySym toyHash toyAsym scenarioTampered scenarioPriv).2 =
        [(4, VoteCryptoError.IntegrityViolation)] := by
  refine ⟨fun Pub Priv S H A votes sk => batchDecryptVotes_ids_perm S H A votes sk, ?_, ?_⟩
  · decide
  · decide

/-- Horner evaluation agrees with evaluation of the bridge polynomial. -/
theorem polyOf_eval {F : Type} [Field F] (coeffs : List F) (x : F) :
    (polyOf coeffs).eval x = polyEval coeffs x := by
  induction coeffs with
  | nil => simp [polyOf, polyEval]
  | cons a t ih =>
    show (Polynomial.C a + Polynomial.X * polyOf t).eval x = a + x * polyEval t x
    simp [ih]

/-- The bridge polynomial of a coefficient list has degree below the list
length. -/
theorem polyOf_degree_lt {F : Type} [Field F] (coeffs : List F) :
    (polyOf coeffs).degree < (coeffs.length : WithBot ℕ) := by
  induction coeffs with
  | nil =>
    show (0 : Polynomial F).degree < ((0 : ℕ) : WithBot ℕ)
    rw [Polynomial.degree_zero]
    exact WithBot.bot_lt_coe 0
  | cons a t ih =>
    show (Polynomial.C a + Polynomial.X * polyOf t).degree < ((t.length + 1 : ℕ) : WithBot ℕ)
    refine lt_of_le_of_lt (Polynomial.degree_add_le _ _) (max_lt ?_ ?_)
    · refine lt_of_le_of_lt Polynomial.degree_C_le ?_
      exact_mod_cast Nat.succ_pos t.length
    · rw [Polynomial.degree_mul, Polynomial.degree_X]
      cases hq : (polyOf t).degree with
      | bot =>
        rw [WithBot.add_bot]
        exact WithBot.bot_lt_coe _
      | coe n =>
        rw [hq] at ih
        rw [Nat.cast_withBot] at ih
        have hn : n < t.length := WithBot.coe_lt_coe.mp ih
        rw [Nat.cast_withBot, ← WithBot.coe_one, ← WithBot.coe_add]
        exact WithBot.coe_lt_coe.mpr (by omega)

/-- The Lagrange reconstruction sum at `x = 0` over a finite node set recovers
the value at `0` of any polynomial of degree below the number of nodes. -/
theorem sum_lagrange_at_zero {F : Type} [Field F] [DecidableEq F] (s : Finset F)
    (f : Polynomial F) (hdeg : f.degree < s.card) :
    ∑ x ∈ s, f.eval x * ∏ y ∈ s.erase x, y * (y - x)⁻¹ = f.eval 0 := by
  have h := Lagrange.eq_interpolate (s := s) (v := id) (Set.injOn_id _) hdeg
  conv_rhs => rw [h]
  rw [Lagrange.interpolate_apply, Polynomial.eval_finset_sum]
  refine Finset.sum_congr rfl (fun x hx => ?_)
  rw [Polynomial.eval_mul, Polynomial.eval_C, id]
  congr 1
  rw [Lagrange.basis, Polynomial.eval_prod]
  refine Finset.prod_congr rfl (fun y hy => ?_)
  rw [Lagrange.basisDivisor, Polynomial.eval_mul, Polynomial.eval_C, Polynomial.eval_sub,
    Polynomial.eval_X, Polynomial.eval_C, id, id]
  rw [show (y : F) - x = -(x - y) from by ring, inv_neg]
  ring

/-- Filtering the graph of `g` by first component agrees with filtering the
node list. -/
theorem filter_map_fst {F : Type} [DecidableEq F] (g : F → F) (xs : List F) (x : F) :
    ((xs.map (fun y => (y, g y))).filter (fun r => r.1 ≠ x)) =
      (xs.filter (fun y => y ≠ x)).map (fun y => (y, g y)) := by
  rw [List.filter_map]
  rfl

/-- The executable reconstruction sum over the graph of `g` on a duplicate-free
node list is the Lagrange reconstruction sum over the node set. -/
theorem lagrangeAtZero_map {F : Type} [Field F] [DecidableEq F] (g : F → F) (xs : List F)
    (hnd : xs.Nodup) :
    lagrangeAtZero (xs.map (fun x => (x, g x))) =
      ∑ x ∈ xs.toFinset, g x * ∏ y ∈ xs.toFinset.erase x, y * (y - x)⁻¹ := by
  unfold lagrangeAtZero
  rw [List.map_map]
  have hout : (fun q : F × F => q.2 * (((xs.map (fun x => (x, g x))).filter
        (fun r => r.1 ≠ q.1)).map (fun r => r.1 * (r.1 - q.1)⁻¹)).prod) ∘ (fun x => (x, g x))
      = fun x => g x * ((xs.filter (fun y => y ≠ x)).map (fun y => y * (y - x)⁻¹)).prod := by
    funext x
    simp only [Function.comp]
    rw [filter_map_fst g xs x, List.map_map]
    rfl
  rw [hout, ← List.sum_toFinset _ hnd]
  refine Finset.sum_congr rfl (fun x hx => ?_)
  congr 1
  rw [← List.prod_toFinset _ (hnd.filter _)]
  have hfe : (xs.filter (fun y => y ≠ x)).toFinset = xs.toFinset.erase x := by
    rw [List.toFinset_filter]
    simp [Finset.filter_ne']
  rw [hfe]

/-- Reconstruction from any duplicate-free sample of the graph of a polynomial,
with at least as many points as coefficients, recovers the constant term. -/
theorem lagrangeAtZero_polyEval {F : Type} [Field F] [DecidableEq F] (coeffs : List F)
    (pts : List (F × F)) (hnd : (pts.map Prod.fst).Nodup)
    (hval : ∀ q ∈ pts, q.2 = polyEval coeffs q.1)
    (hlen : coeffs.length ≤ pts.length) :
    lagrangeAtZero pts = polyEval coeffs 0 := by
  have hpts : (pts.map Prod.fst).map (fun x => (x, polyEval coeffs x)) = pts := by
    rw [List.map_map]
    conv_rhs => rw [← List.map_id pts]
    refine List.map_congr_left (fun q hq => ?_)
    obtain ⟨a, b⟩ := q
    have hb := hval ⟨a, b⟩ hq
    simp only [Function.comp, id]
    simp only at hb
    rw [hb]
  have hcard : coeffs.length ≤ ((pts.map Prod.fst).toFinset).card := by
    rw [List.toFinset_card_of_nodup hnd, List.length_map]
    exact hlen
  have hsum := sum_lagrange_at_zero ((pts.map Prod.fst).toFinset) (polyOf coeffs)
    (lt_of_lt_of_le (polyOf_degree_lt coeffs) (by exact_mod_cast hcard))
  simp only [polyOf_eval] at hsum
  rw [← hpts, lagrangeAtZero_map _ _ hnd]
  exact hsum

/-- Casting `1..N` into `ZMod p` with `N < p` yields pairwise distinct field
elements. -/
theorem natCast_succ_injOn_range (p N : ℕ) [NeZero p] (hNp : N < p) :
    ∀ i ∈ List.range N, ∀ j ∈ List.range N,
      ((i + 1 : ℕ) : ZMod p) = ((j + 1 : ℕ) : ZMod p) → i = j := by
  intro i hi j hj h
  rw [List.mem_range] at hi hj
  have hvi := ZMod.val_cast_of_lt (a := i + 1) (by omega : i + 1 < p)
  have hvj := ZMod.val_cast_of_lt (a := j + 1) (by omega : j + 1 < p)
  have : ((i + 1 : ℕ) : ZMod p).val = ((j + 1 : ℕ) : ZMod p).val := by rw [h]
  omega

/-- C1: for every secret, every valid `(T, N)` with `1 ≤ T ≤ N` (and `N` below
the field size so the share x-coordinates are distinct), and every subset of
exactly `T` of the `N` shares produced by `split`, `reconstruct` returns
exactly the secret — hence any two `T`-subsets reconstruct the same secret. -/
theorem split_reconstruct_roundtrip (p : ℕ) [Fact p.Prime] (secret : ZMod p)
    (rand : List (ZMod p)) (T N : ℕ) (hrand : rand.length = T - 1) (hT : 1 ≤ T)
    (hTN : T ≤ N) (hNp : N < p) (shares : List (KeyShare p))
    (hsplit : split secret rand T N = .ok shares) (sub : List (KeyShare p))
    (hsub : sub ⊆ shares) (hnodup : sub.Nodup) (hlen : sub.length = T) :
    reconstruct T sub = .ok secret := by
  have hcond : ¬(T < 1 ∨ N < T) := by omega
  rw [split, if_neg hcond] at hsplit
  have hshares : shares = (List.range N).map (fun i =>
      (⟨i + 1, polyEval (secret :: rand) ((i + 1 : ℕ) : ZMod p)⟩ : KeyShare p)) :=
    (Except.ok.inj hsplit).symm
  have hnotlt : ¬(sub.length < T) := by omega
  rw [reconstruct, if_neg hnotlt]
  have hinj : ∀ sh1 ∈ shares, ∀ sh2 ∈ shares,
      ((sh1.shareIndex : ℕ) : ZMod p) = ((sh2.shareIndex : ℕ) : ZMod p) → sh1 = sh2 := by
    intro sh1 h1 sh2 h2 heq
    rw [hshares, List.mem_map] at h1 h2
    obtain ⟨i, hi, rfl⟩ := h1
    obtain ⟨j, hj, rfl⟩ := h2
    have := natCast_succ_injOn_range p N hNp i hi j hj (by simpa using heq)
    subst this
    rfl
  have hnd : ((sub.map (fun sh => (((sh.shareIndex : ℕ) : ZMod p), sh.shareValue))).map
      Prod.fst).Nodup := by
    rw [List.map_map]
    refine List.Nodup.map_on ?_ hnodup
    intro sh1 h1 sh2 h2 heq
    exact hinj sh1 (hsub h1) sh2 (hsub h2) (by simpa using heq)
  have hval : ∀ q ∈ sub.map (fun sh => (((sh.shareIndex : ℕ) : ZMod p), sh.shareValue)),
      q.2 = polyEval (secret :: rand) q.1 := by
    intro q hq
    rw [List.mem_map] at hq
    obtain ⟨sh, hshmem, rfl⟩ := hq
    have hmem : sh ∈ shares := hsub hshmem
    rw [hshares, List.mem_map] at hmem
    obtain ⟨i, hi, rfl⟩ := hmem
    rfl
  have hlen2 : (secret :: rand).length ≤
      (sub.map (fun sh => (((sh.shareIndex : ℕ) : ZMod p), sh.shareValue))).length := by
    simp [hrand]
    omega
  rw [lagrangeAtZero_polyEval (secret :: rand) _ hnd hval hlen2]
  simp [polyEval]

theorem split_reconstruct_roundtrip_witness :
    reconstruct 2 ([⟨3, 0⟩, ⟨1, 12⟩] : List (KeyShare 13)) = .ok 5 :=
  split_reconstruct_roundtrip 13 5 [7] 2 3 rfl (by omega) (by omega) (by omega)
    [⟨1, 12⟩, ⟨2, 6⟩, ⟨3, 0⟩] rfl [⟨3, 0⟩, ⟨1, 12⟩] (by decide) (by decide) rfl

end SecureBallot
